import Mathlib

/-!
Verification of the YAPF A-star node-management core
(`src/pathfinder/yapf/nodelist.hpp`, template class `NodeList<Titem>`).

The `NodeList` façade composes three collaborator structures that are not part
of the sources at hand (`BumpAllocContainer`, `HashTable`, `CBinaryHeapT`);
those are modelled from the specification's contracts (spec §4.1-§4.3), while
the façade operations themselves are translated directly from the bodies in
`nodelist.hpp`.

Nodes (`Titem`) are embedded as records with a key and a total estimated cost,
both natural numbers; arena handles are indices into the list of all allocated
nodes, mirroring the stable pointers handed out by the bump allocator.
-/

namespace YapfNodeList

/-- A search node (`Titem`): an opaque comparable key plus the total estimated
cost used as the Priority Queue's sort key.  Parent back-references and the
cost-so-far field play no role in any façade operation, so they are omitted
from the embedding. -/
structure Node where
  key : Nat
  cost : Nat
deriving DecidableEq, Repr

instance : Inhabited Node := ⟨⟨0, 0⟩⟩

/-- Key of the arena node behind handle `h` (out-of-range handles, which never
occur in guarded traces, read as the default node). -/
def keyAt (items : List Node) (h : Nat) : Nat := ((items[h]?).getD default).key

/-- Total estimated cost of the arena node behind handle `h`. -/
def costAt (items : List Node) (h : Nat) : Nat := ((items[h]?).getD default).cost

/-- Modelled from the spec: `HashTable::Find(key)` of the missing
`misc/hashtable.hpp` — returns the node with that key if present, else empty
(spec §4.2).  The table is embedded as the list of handles it holds. -/
def htFind (items : List Node) (tbl : List Nat) (k : Nat) : Option Nat :=
  tbl.find? (fun h => keyAt items h == k)

/-- Modelled from the spec: `HashTable::Push(node)` of the missing
`misc/hashtable.hpp` — inserts the node keyed by its own key; the caller
guarantees the key is not already present (spec §4.2). -/
def htPush (tbl : List Nat) (h : Nat) : List Nat := tbl ++ [h]

/-- Modelled from the spec: `HashTable::Pop(key)` / `Pop(node)` of the missing
`misc/hashtable.hpp` — removes the node stored under that key; the caller
guarantees presence (spec §4.2). -/
def htPopKey (items : List Node) (tbl : List Nat) (k : Nat) : List Nat :=
  tbl.eraseP (fun h => keyAt items h == k)

/-- Modelled from the spec: `CBinaryHeapT::Begin` of the missing
`misc/binaryheap.hpp` — peeks the current minimum by total estimated cost
(spec §4.3).  The queue is embedded as the list of handles it holds; among
equal-cost elements the earliest position wins, a deterministic tie-break as
§4.3 requires. -/
def queueMin (items : List Node) : List Nat → Option Nat
  | [] => none
  | h :: rest =>
    match queueMin items rest with
    | none => some h
    | some b => if costAt items b < costAt items h then some b else some h

/-- Modelled from the spec: `CBinaryHeapT::Include` of the missing
`misc/binaryheap.hpp` — inserts a node handle (spec §4.3); the heap-shape
bookkeeping is irrelevant at the contract level, so inclusion appends. -/
def queueInclude (q : List Nat) (h : Nat) : List Nat := q ++ [h]

/-- State of `NodeList` (nodelist.hpp lines 28-32): the arena of all allocated
nodes, the open and closed membership indices, the priority queue of open
handles, and the single node under construction. -/
structure NodeList where
  items : List Node
  open_nodes : List Nat
  closed_nodes : List Nat
  open_queue : List Nat
  new_node : Option Nat
deriving DecidableEq, Repr

/-- `NodeList()` default constructor (nodelist.hpp lines 36-39). -/
def initState : NodeList := ⟨[], [], [], [], none⟩

/-- `OpenCount` (nodelist.hpp lines 42-45): number of open nodes, taken from
the open membership index. -/
def OpenCount (s : NodeList) : Nat := s.open_nodes.length

/-- `ClosedCount` (nodelist.hpp lines 48-51). -/
def ClosedCount (s : NodeList) : Nat := s.closed_nodes.length

/-- `TotalCount` (nodelist.hpp lines 54-57): total number of arena-allocated
nodes. -/
def TotalCount (s : NodeList) : Nat := s.items.length

/-- `CreateNewNode` (nodelist.hpp lines 60-64): if no node is under
construction, allocate a default-initialized one from the arena and remember
it; return the remembered handle. -/
def CreateNewNode (s : NodeList) : NodeList × Nat :=
  match s.new_node with
  | some h => (s, h)
  | none =>
    ({ s with items := s.items ++ [default], new_node := some s.items.length },
     s.items.length)

/-- `FoundBestNode` (nodelist.hpp lines 67-74): invalidate `new_node` if it is
the given node; no index is touched. -/
def FoundBestNode (s : NodeList) (h : Nat) : NodeList :=
  if s.new_node = some h then { s with new_node := none } else s

/-- `InsertOpenNode` (nodelist.hpp lines 77-85): push into the open index,
include into the queue, and clear `new_node` if it was this node.  The
`dbg_assert` that the key is absent from the closed index is kept as a guard,
not in the body, matching release-build behaviour. -/
def InsertOpenNode (s : NodeList) (h : Nat) : NodeList :=
  { s with open_nodes := htPush s.open_nodes h,
           open_queue := queueInclude s.open_queue h,
           new_node := if s.new_node = some h then none else s.new_node }

/-- `GetBestOpenNode` (nodelist.hpp lines 88-94): peek the queue minimum if the
queue is non-empty, else return null; the state is returned unchanged to make
the absence of mutation explicit. -/
def GetBestOpenNode (s : NodeList) : Option Nat × NodeList :=
  match queueMin s.items s.open_queue with
  | none => (none, s)
  | some m => (some m, s)

/-- `PopBestOpenNode` (nodelist.hpp lines 97-105): if the queue is non-empty,
shift the minimum off the queue and pop it from the open index by its key;
else return null. -/
def PopBestOpenNode (s : NodeList) : Option Nat × NodeList :=
  match queueMin s.items s.open_queue with
  | none => (none, s)
  | some m =>
    (some m, { s with open_queue := s.open_queue.erase m,
                      open_nodes := htPopKey s.items s.open_nodes (keyAt s.items m) })

/-- `DequeueBestOpenNode` (nodelist.hpp lines 107-111): shift the minimum off
the queue only; the open index keeps its entry.  The `dbg_assert` that the
queue is non-empty is kept as a guard. -/
def DequeueBestOpenNode (s : NodeList) : NodeList :=
  match queueMin s.items s.open_queue with
  | none => s
  | some m => { s with open_queue := s.open_queue.erase m }

/-- `ReenqueueOpenNode` (nodelist.hpp lines 113-116): include the handle into
the queue only. -/
def ReenqueueOpenNode (s : NodeList) (h : Nat) : NodeList :=
  { s with open_queue := queueInclude s.open_queue h }

/-- `PopAlreadyDequeuedOpenNode` (nodelist.hpp lines 118-121): pop the key from
the open index only (the queue entry was already removed by
`DequeueBestOpenNode`). -/
def PopAlreadyDequeuedOpenNode (s : NodeList) (k : Nat) : Option Nat × NodeList :=
  match htFind s.items s.open_nodes k with
  | none => (none, s)
  | some h => (some h, { s with open_nodes := htPopKey s.items s.open_nodes k })

/-- `FindOpenNode` (nodelist.hpp lines 124-127): pure lookup in the open
index. -/
def FindOpenNode (s : NodeList) (k : Nat) : Option Nat :=
  htFind s.items s.open_nodes k

/-- `PopOpenNode` (nodelist.hpp lines 130-136): pop the key from the open
index, then locate and remove the same node in the queue. -/
def PopOpenNode (s : NodeList) (k : Nat) : Option Nat × NodeList :=
  match htFind s.items s.open_nodes k with
  | none => (none, s)
  | some h =>
    (some h, { s with open_nodes := htPopKey s.items s.open_nodes k,
                      open_queue := s.open_queue.erase h })

/-- `InsertClosedNode` (nodelist.hpp lines 139-143): push into the closed index
only; `new_node` is left untouched.  The `dbg_assert` that the key is absent
from the open index is kept as a guard. -/
def InsertClosedNode (s : NodeList) (h : Nat) : NodeList :=
  { s with closed_nodes := htPush s.closed_nodes h }

/-- `FindClosedNode` (nodelist.hpp lines 146-149): pure lookup in the closed
index. -/
def FindClosedNode (s : NodeList) (k : Nat) : Option Nat :=
  htFind s.items s.closed_nodes k

/-- The search loop populating the fields of a not-yet-indexed node it obtained
from `CreateNewNode` (spec §2: the caller mutates cost fields directly; §6
forbids key mutation once indexed). -/
def SetNodeFields (s : NodeList) (h k c : Nat) : NodeList :=
  { s with items := s.items.set h ⟨k, c⟩ }

/-- The search loop revising a node's total estimated cost (spec §4.3:
decrease-key happens via re-insertion, so the node is outside the queue when
its cost changes).  The key is left unchanged. -/
def SetNodeCost (s : NodeList) (h c : Nat) : NodeList :=
  { s with items := s.items.set h ⟨keyAt s.items h, c⟩ }

/-- One façade-level action of the search loop on the `NodeList`, including the
two direct field mutations the caller performs on arena nodes. -/
inductive Op where
  | create
  | setFields (h k c : Nat)
  | setCost (h c : Nat)
  | foundBest (h : Nat)
  | insertOpen (h : Nat)
  | popBest
  | dequeueBest
  | reenqueue (h : Nat)
  | popAlreadyDequeued (k : Nat)
  | popOpen (k : Nat)
  | insertClosed (h : Nat)
deriving DecidableEq, Repr

/-- The caller obligations attached to each operation: the `dbg_assert`s of
nodelist.hpp, the hash-table caller guarantees of spec §4.2 (no duplicate
`Push`, `Pop` only of present keys), the queue precondition of spec §4.3
(`FindIndex` locates a present node), the matched dequeue/re-insert window of
spec §4.4 and Invariant I2, and the key-immutability rule of spec §6. -/
def guardOk : Op → NodeList → Bool
  | .create, _ => true
  | .setFields h _ _, s =>
    decide (h < s.items.length) && !(s.open_nodes.contains h) &&
      !(s.closed_nodes.contains h) && !(s.open_queue.contains h)
  | .setCost h _, s => decide (h < s.items.length) && !(s.open_queue.contains h)
  | .foundBest h, s => decide (h < s.items.length)
  | .insertOpen h, s =>
    decide (h < s.items.length) && (FindClosedNode s (keyAt s.items h)).isNone &&
      (FindOpenNode s (keyAt s.items h)).isNone
  | .popBest, _ => true
  | .dequeueBest, s => !(s.open_queue.isEmpty)
  | .reenqueue h, s => s.open_nodes.contains h && !(s.open_queue.contains h)
  | .popAlreadyDequeued k, s =>
    match htFind s.items s.open_nodes k with
    | some h => !(s.open_queue.contains h)
    | none => false
  | .popOpen k, s =>
    match htFind s.items s.open_nodes k with
    | some h => s.open_queue.contains h
    | none => false
  | .insertClosed h, s =>
    decide (h < s.items.length) && (FindOpenNode s (keyAt s.items h)).isNone &&
      (FindClosedNode s (keyAt s.items h)).isNone

/-- State transition of one operation (results, when an operation returns one,
are read off the corresponding function directly). -/
def run : Op → NodeList → NodeList
  | .create, s => (CreateNewNode s).1
  | .setFields h k c, s => SetNodeFields s h k c
  | .setCost h c, s => SetNodeCost s h c
  | .foundBest h, s => FoundBestNode s h
  | .insertOpen h, s => InsertOpenNode s h
  | .popBest, s => (PopBestOpenNode s).2
  | .dequeueBest, s => DequeueBestOpenNode s
  | .reenqueue h, s => ReenqueueOpenNode s h
  | .popAlreadyDequeued k, s => (PopAlreadyDequeuedOpenNode s k).2
  | .popOpen k, s => (PopOpenNode s k).2
  | .insertClosed h, s => InsertClosedNode s h

/-- States reachable from the fresh `NodeList` through the façade operations,
each applied under its caller obligations. -/
inductive Reach : NodeList → Prop where
  | init : Reach initState
  | step {s : NodeList} (op : Op) : guardOk op s = true → Reach s → Reach (run op s)

/-- The costs returned by calling `PopBestOpenNode` repeatedly (at most `fuel`
times), stopping at the first empty result. -/
def popAllCosts : Nat → NodeList → List Nat
  | 0, _ => []
  | fuel + 1, s =>
    match PopBestOpenNode s with
    | (none, _) => []
    | (some m, s') => costAt s.items m :: popAllCosts fuel s'

/-- Reachability in which the dequeue window of spec §4.4 is always closed
immediately: `DequeueBestOpenNode` occurs only as the first half of a matched
pair whose second half is `ReenqueueOpenNode` of the dequeued node or
`PopAlreadyDequeuedOpenNode` of its key, and the window operations never occur
on their own. -/
inductive ReachP : NodeList → Prop where
  | init : ReachP initState
  | create {s : NodeList} : ReachP s → ReachP (run .create s)
  | setFields {s : NodeList} (h k c : Nat) :
      guardOk (.setFields h k c) s = true → ReachP s → ReachP (run (.setFields h k c) s)
  | setCost {s : NodeList} (h c : Nat) :
      guardOk (.setCost h c) s = true → ReachP s → ReachP (run (.setCost h c) s)
  | foundBest {s : NodeList} (h : Nat) :
      guardOk (.foundBest h) s = true → ReachP s → ReachP (run (.foundBest h) s)
  | insertOpen {s : NodeList} (h : Nat) :
      guardOk (.insertOpen h) s = true → ReachP s → ReachP (run (.insertOpen h) s)
  | popBest {s : NodeList} : ReachP s → ReachP (run .popBest s)
  | popOpen {s : NodeList} (k : Nat) :
      guardOk (.popOpen k) s = true → ReachP s → ReachP (run (.popOpen k) s)
  | insertClosed {s : NodeList} (h : Nat) :
      guardOk (.insertClosed h) s = true → ReachP s → ReachP (run (.insertClosed h) s)
  | dequeueReenqueue {s : NodeList} {m : Nat} :
      queueMin s.items s.open_queue = some m → ReachP s →
      ReachP (run (.reenqueue m) (run .dequeueBest s))
  | dequeuePopAlready {s : NodeList} {m : Nat} :
      queueMin s.items s.open_queue = some m → ReachP s →
      ReachP (run (.popAlreadyDequeued (keyAt s.items m)) (run .dequeueBest s))

/-- A node freshly created and populated with key 7 and cost 5, not yet
committed anywhere. -/
def sNew : NodeList := run (.setFields 0 7 5) (run .create initState)

/-- One node (key 7, cost 5) inserted into the open set. -/
def sA : NodeList := run (.insertOpen 0) sNew

/-- Scenario B state: the key-7 node popped from the open set and closed. -/
def sB : NodeList := run (.insertClosed 0) (run .popBest sA)

/-- The open dequeue window: the single open node dequeued from the queue but
still held by the open index. -/
def sDeq : NodeList := run .dequeueBest sA

/-- The key-7 node popped from the open set and handed to the caller, never
re-indexed. -/
def sPop : NodeList := run .popBest sA

/-- Two nodes allocated and released via `FoundBestNode` without ever being
indexed. -/
def sLeak2 : NodeList :=
  run (.foundBest 1) (run .create (run (.foundBest 0) (run .create initState)))

/-- Scenario A state: three open nodes, keys 1, 2, 3 with costs 5, 3, 7. -/
def sABC : NodeList :=
  run (.insertOpen 2) (run (.setFields 2 3 7) (run .create
    (run (.insertOpen 1) (run (.setFields 1 2 3) (run .create
      (run (.insertOpen 0) (run (.setFields 0 1 5) (run .create initState))))))))

/-- Keys currently held by the open membership index. -/
def openKeys (s : NodeList) : List Nat := s.open_nodes.map (keyAt s.items)

/-- Keys currently held by the closed membership index. -/
def closedKeys (s : NodeList) : List Nat := s.closed_nodes.map (keyAt s.items)

/-- The structural invariant of the `NodeList`: keys are unique within each
membership index and disjoint across them (Invariant I1), every queue handle is
an open-index handle and the queue holds no duplicates (Invariant I2, in the
direction that survives the dequeue window), and every indexed handle points
into the arena. -/
structure Inv (s : NodeList) : Prop where
  ok_nodup : (openKeys s).Nodup
  ck_nodup : (closedKeys s).Nodup
  ok_ck_disj : ∀ k, k ∈ openKeys s → k ∉ closedKeys s
  q_sub : ∀ h, h ∈ s.open_queue → h ∈ s.open_nodes
  q_nodup : s.open_queue.Nodup
  on_lt : ∀ h ∈ s.open_nodes, h < s.items.length
  cn_lt : ∀ h ∈ s.closed_nodes, h < s.items.length

/-! ### Stability of node fields under arena growth and caller mutation -/

theorem keyAt_append {items l' : List Node} {h : Nat} (hh : h < items.length) :
    keyAt (items ++ l') h = keyAt items h := by
  simp [keyAt, List.getElem?_append, hh]

theorem costAt_append {items l' : List Node} {h : Nat} (hh : h < items.length) :
    costAt (items ++ l') h = costAt items h := by
  simp [costAt, List.getElem?_append, hh]

theorem keyAt_set_ne {items : List Node} {n : Node} {h h' : Nat} (hne : h' ≠ h) :
    keyAt (items.set h n) h' = keyAt items h' := by
  simp [keyAt, List.getElem?_set_ne (fun e => hne e.symm)]

theorem keyAt_setCost (s : NodeList) (h c : Nat) (h' : Nat) :
    keyAt (SetNodeCost s h c).items h' = keyAt s.items h' := by
  by_cases he : h' = h
  · subst he
    by_cases hl : h' < s.items.length
    · simp [SetNodeCost, keyAt, List.getElem?_set_self hl]
    · simp [SetNodeCost, List.set_eq_of_length_le (Nat.le_of_not_lt hl)]
  · simp [SetNodeCost, keyAt_set_ne he]

/-! ### The modelled Priority Queue: minimum extraction -/

theorem queueMin_mem {items : List Node} {l : List Nat} {m : Nat}
    (hm : queueMin items l = some m) : m ∈ l := by
  induction l generalizing m with
  | nil => simp [queueMin] at hm
  | cons h rest ih =>
    rw [queueMin] at hm
    cases hq : queueMin items rest with
    | none => rw [hq] at hm; simp at hm; simp [hm]
    | some b =>
      rw [hq] at hm
      by_cases hc : costAt items b < costAt items h
      · simp [hc] at hm
        exact List.mem_cons_of_mem _ (ih (hm ▸ hq))
      · simp [hc] at hm
        simp [hm]

theorem queueMin_eq_none {items : List Node} {l : List Nat}
    (hm : queueMin items l = none) : l = [] := by
  cases l with
  | nil => rfl
  | cons h rest =>
    rw [queueMin] at hm
    cases hq : queueMin items rest with
    | none => rw [hq] at hm; simp at hm
    | some b =>
      rw [hq] at hm
      by_cases hc : costAt items b < costAt items h <;> simp [hc] at hm

theorem queueMin_isSome {items : List Node} {l : List Nat} (hl : l ≠ []) :
    ∃ m, queueMin items l = some m := by
  cases hq : queueMin items l with
  | none => exact absurd (queueMin_eq_none hq) hl
  | some b => exact ⟨b, rfl⟩

theorem queueMin_le {items : List Node} {l : List Nat} {m : Nat}
    (hm : queueMin items l = some m) :
    ∀ x ∈ l, costAt items m ≤ costAt items x := by
  induction l generalizing m with
  | nil => simp [queueMin] at hm
  | cons h rest ih =>
    rw [queueMin] at hm
    cases hq : queueMin items rest with
    | none =>
      rw [hq] at hm
      simp at hm
      have hrest : rest = [] := queueMin_eq_none hq
      subst hrest
      simp [hm]
    | some b =>
      rw [hq] at hm
      by_cases hc : costAt items b < costAt items h
      · simp [hc] at hm
        intro x hx
        rcases List.mem_cons.mp hx with hx | hx
        · exact hx ▸ hm ▸ Nat.le_of_lt hc
        · exact ih (hm ▸ hq) x hx
      · simp [hc] at hm
        intro x hx
        rcases List.mem_cons.mp hx with hx | hx
        · exact hx ▸ hm ▸ Nat.le_refl _
        · exact Nat.le_trans (hm ▸ Nat.le_of_not_lt hc) (ih hq x hx)

/-! ### The modelled Membership Index: find and pop -/

theorem htFind_eq_none {items : List Node} {tbl : List Nat} {k : Nat} :
    htFind items tbl k = none ↔ ∀ h ∈ tbl, keyAt items h ≠ k := by
  simp [htFind, List.find?_eq_none]

theorem htFind_some {items : List Node} {tbl : List Nat} {k h : Nat}
    (hf : htFind items tbl k = some h) : h ∈ tbl ∧ keyAt items h = k := by
  refine ⟨List.mem_of_find?_eq_some hf, ?_⟩
  have := List.find?_some hf
  simpa using this

theorem htFind_isSome {items : List Node} {tbl : List Nat} {k h : Nat}
    (hmem : h ∈ tbl) (hk : keyAt items h = k) : ∃ h', htFind items tbl k = some h' := by
  have : (htFind items tbl k).isSome = true := by
    rw [htFind, List.find?_isSome]
    exact ⟨h, hmem, by simp [hk]⟩
  exact Option.isSome_iff_exists.mp this

theorem htPopKey_sublist (items : List Node) (tbl : List Nat) (k : Nat) :
    (htPopKey items tbl k).Sublist tbl :=
  List.eraseP_sublist _

theorem htPopKey_length {items : List Node} {tbl : List Nat} {k h : Nat}
    (hmem : h ∈ tbl) (hk : keyAt items h = k) :
    (htPopKey items tbl k).length + 1 = tbl.length :=
  List.length_eraseP_add_one hmem (by simp [hk])

theorem mem_htPopKey_of_ne {items : List Node} {tbl : List Nat} {k h : Nat}
    (hk : keyAt items h ≠ k) : h ∈ htPopKey items tbl k ↔ h ∈ tbl :=
  List.mem_eraseP_of_neg (by simp [hk])

theorem htPopKey_no_key {items : List Node} {tbl : List Nat} {k : Nat}
    (hnd : (tbl.map (keyAt items)).Nodup) :
    ∀ h ∈ htPopKey items tbl k, keyAt items h ≠ k := by
  induction tbl with
  | nil => simp [htPopKey]
  | cons t rest ih =>
    simp only [List.map_cons, List.nodup_cons] at hnd
    intro h hh he
    rw [htPopKey, List.eraseP_cons, cond_eq_if] at hh
    by_cases ht : keyAt items t = k
    · simp [ht] at hh
      exact hnd.1 (by rw [ht, ← he]; exact List.mem_map_of_mem (keyAt items) hh)
    · simp [ht] at hh
      rcases hh with hh | hh
      · exact ht (by rw [← hh]; exact he)
      · exact ih hnd.2 h hh he

theorem findOpen_eq_none {s : NodeList} {k : Nat} :
    FindOpenNode s k = none ↔ k ∉ openKeys s := by
  rw [FindOpenNode, htFind_eq_none, openKeys]
  simp

theorem findClosed_eq_none {s : NodeList} {k : Nat} :
    FindClosedNode s k = none ↔ k ∉ closedKeys s := by
  rw [FindClosedNode, htFind_eq_none, closedKeys]
  simp

/-! ### Preservation of the structural invariant by each operation -/

theorem inv_init : Inv initState := by
  constructor <;> simp [initState, openKeys, closedKeys]

theorem inv_create {s : NodeList} (hs : Inv s) : Inv (CreateNewNode s).1 := by
  cases hn : s.new_node with
  | some h =>
    have he : (CreateNewNode s).1 = s := by simp [CreateNewNode, hn]
    rw [he]; exact hs
  | none =>
    have he : (CreateNewNode s).1 = { s with items := s.items ++ [default], new_node := some s.items.length } := by
      simp [CreateNewNode, hn]
    rw [he]
    have hok : openKeys { s with items := s.items ++ [default], new_node := some s.items.length } = openKeys s :=
      List.map_congr_left (fun a ha => keyAt_append (hs.on_lt a ha))
    have hck : closedKeys { s with items := s.items ++ [default], new_node := some s.items.length } = closedKeys s :=
      List.map_congr_left (fun a ha => keyAt_append (hs.cn_lt a ha))
    refine ⟨hok ▸ hs.ok_nodup, hck ▸ hs.ck_nodup, ?_, hs.q_sub, hs.q_nodup, ?_, ?_⟩
    · intro k hk
      rw [hck]
      rw [hok] at hk
      exact hs.ok_ck_disj k hk
    · intro h hh
      simp only [List.length_append, List.length_singleton]
      exact Nat.lt_succ_of_lt (hs.on_lt h hh)
    · intro h hh
      simp only [List.length_append, List.length_singleton]
      exact Nat.lt_succ_of_lt (hs.cn_lt h hh)

theorem inv_setFields {s : NodeList} {h k c : Nat}
    (hg : guardOk (.setFields h k c) s = true) (hs : Inv s) :
    Inv (SetNodeFields s h k c) := by
  simp only [guardOk, Bool.and_eq_true, Bool.not_eq_true', decide_eq_true_eq] at hg
  obtain ⟨⟨⟨hlt, hno⟩, hnc⟩, hnq⟩ := hg
  rw [← Bool.not_eq_true] at hno hnc
  have hno' : h ∉ s.open_nodes := by simpa using hno
  have hnc' : h ∉ s.closed_nodes := by simpa using hnc
  have hok : openKeys (SetNodeFields s h k c) = openKeys s :=
    List.map_congr_left (fun a ha => keyAt_set_ne (fun e => hno' (e ▸ ha)))
  have hck : closedKeys (SetNodeFields s h k c) = closedKeys s :=
    List.map_congr_left (fun a ha => keyAt_set_ne (fun e => hnc' (e ▸ ha)))
  refine ⟨hok ▸ hs.ok_nodup, hck ▸ hs.ck_nodup, ?_, hs.q_sub, hs.q_nodup, ?_, ?_⟩
  · intro kk hk
    rw [hck]
    rw [hok] at hk
    exact hs.ok_ck_disj kk hk
  · intro x hx
    simpa [SetNodeFields] using hs.on_lt x hx
  · intro x hx
    simpa [SetNodeFields] using hs.cn_lt x hx

theorem inv_setCost {s : NodeList} {h c : Nat} (hs : Inv s) : Inv (SetNodeCost s h c) := by
  have hok : openKeys (SetNodeCost s h c) = openKeys s :=
    List.map_congr_left (fun a _ => keyAt_setCost s h c a)
  have hck : closedKeys (SetNodeCost s h c) = closedKeys s :=
    List.map_congr_left (fun a _ => keyAt_setCost s h c a)
  refine ⟨hok ▸ hs.ok_nodup, hck ▸ hs.ck_nodup, ?_, hs.q_sub, hs.q_nodup, ?_, ?_⟩
  · intro kk hk
    rw [hck]
    rw [hok] at hk
    exact hs.ok_ck_disj kk hk
  · intro x hx
    simpa [SetNodeCost] using hs.on_lt x hx
  · intro x hx
    simpa [SetNodeCost] using hs.cn_lt x hx

theorem inv_foundBest {s : NodeList} {h : Nat} (hs : Inv s) : Inv (FoundBestNode s h) := by
  rw [FoundBestNode]
  split
  · exact ⟨hs.ok_nodup, hs.ck_nodup, hs.ok_ck_disj, hs.q_sub, hs.q_nodup, hs.on_lt, hs.cn_lt⟩
  · exact hs

theorem inv_insertOpen {s : NodeList} {h : Nat}
    (hg : guardOk (.insertOpen h) s = true) (hs : Inv s) : Inv (InsertOpenNode s h) := by
  simp only [guardOk, Bool.and_eq_true, decide_eq_true_eq, Option.isNone_iff_eq_none] at hg
  obtain ⟨⟨hlt, hcl⟩, hop⟩ := hg
  have hknotopen : keyAt s.items h ∉ openKeys s := findOpen_eq_none.mp hop
  have hknotclosed : keyAt s.items h ∉ closedKeys s := findClosed_eq_none.mp hcl
  have hok : openKeys (InsertOpenNode s h) = openKeys s ++ [keyAt s.items h] := by
    simp [InsertOpenNode, openKeys, htPush]
  refine ⟨?_, hs.ck_nodup, ?_, ?_, ?_, ?_, hs.cn_lt⟩
  · rw [hok]
    rw [List.nodup_append]
    refine ⟨hs.ok_nodup, List.nodup_singleton _, ?_⟩
    intro a ha hmem
    rw [List.mem_singleton] at hmem
    exact hknotopen (hmem ▸ ha)
  · intro k hk
    rw [hok] at hk
    rcases List.mem_append.mp hk with hk | hk
    · exact hs.ok_ck_disj k hk
    · simp at hk
      exact hk ▸ hknotclosed
  · intro x hx
    rcases List.mem_append.mp hx with hx | hx
    · exact List.mem_append.mpr (Or.inl (hs.q_sub x hx))
    · exact List.mem_append.mpr (Or.inr hx)
  · have hnotq : h ∉ s.open_queue := fun hq =>
      hknotopen (List.mem_map_of_mem _ (hs.q_sub h hq))
    rw [show (InsertOpenNode s h).open_queue = s.open_queue ++ [h] from rfl,
      List.nodup_append]
    refine ⟨hs.q_nodup, List.nodup_singleton _, ?_⟩
    intro a ha hmem
    rw [List.mem_singleton] at hmem
    exact hnotq (hmem ▸ ha)
  · intro x hx
    rcases List.mem_append.mp hx with hx | hx
    · exact hs.on_lt x hx
    · simp at hx
      exact hx ▸ hlt

theorem inv_popBest {s : NodeList} (hs : Inv s) : Inv (PopBestOpenNode s).2 := by
  cases hq : queueMin s.items s.open_queue with
  | none =>
    have he : (PopBestOpenNode s).2 = s := by simp [PopBestOpenNode, hq]
    rw [he]; exact hs
  | some m =>
    have hmq : m ∈ s.open_queue := queueMin_mem hq
    have hmo : m ∈ s.open_nodes := hs.q_sub m hmq
    have he : (PopBestOpenNode s).2 = { s with open_queue := s.open_queue.erase m, open_nodes := htPopKey s.items s.open_nodes (keyAt s.items m) } := by
      simp [PopBestOpenNode, hq]
    rw [he]
    have hsub := htPopKey_sublist s.items s.open_nodes (keyAt s.items m)
    refine ⟨(hsub.map _).nodup hs.ok_nodup, hs.ck_nodup,
      fun k hk => hs.ok_ck_disj k ((hsub.map _).subset hk), ?_,
      (List.erase_sublist m s.open_queue).nodup hs.q_nodup,
      fun x hx => hs.on_lt x (hsub.subset hx), hs.cn_lt⟩
    intro x hx
    obtain ⟨hne, hxq⟩ := (List.Nodup.mem_erase_iff hs.q_nodup).mp hx
    have hxo := hs.q_sub x hxq
    have hkne : keyAt s.items x ≠ keyAt s.items m :=
      fun e => hne (List.inj_on_of_nodup_map hs.ok_nodup hxo hmo e)
    exact (mem_htPopKey_of_ne hkne).mpr hxo

theorem inv_dequeueBest {s : NodeList} (hs : Inv s) : Inv (DequeueBestOpenNode s) := by
  cases hq : queueMin s.items s.open_queue with
  | none =>
    have he : DequeueBestOpenNode s = s := by simp [DequeueBestOpenNode, hq]
    rw [he]; exact hs
  | some m =>
    have he : DequeueBestOpenNode s = { s with open_queue := s.open_queue.erase m } := by
      simp [DequeueBestOpenNode, hq]
    rw [he]
    exact ⟨hs.ok_nodup, hs.ck_nodup, hs.ok_ck_disj,
      fun x hx => hs.q_sub x (List.mem_of_mem_erase hx),
      (List.erase_sublist m s.open_queue).nodup hs.q_nodup, hs.on_lt, hs.cn_lt⟩

theorem inv_reenqueue {s : NodeList} {h : Nat}
    (hg : guardOk (.reenqueue h) s = true) (hs : Inv s) : Inv (ReenqueueOpenNode s h) := by
  simp only [guardOk, Bool.and_eq_true, Bool.not_eq_true'] at hg
  obtain ⟨hmem, hnq⟩ := hg
  have hmem' : h ∈ s.open_nodes := by simpa using hmem
  have hnq' : h ∉ s.open_queue := by
    rw [← Bool.not_eq_true] at hnq
    simpa using hnq
  refine ⟨hs.ok_nodup, hs.ck_nodup, hs.ok_ck_disj, ?_, ?_, hs.on_lt, hs.cn_lt⟩
  · intro x hx
    rcases List.mem_append.mp hx with hx | hx
    · exact hs.q_sub x hx
    · simp at hx
      exact hx ▸ hmem'
  · rw [show (ReenqueueOpenNode s h).open_queue = s.open_queue ++ [h] from rfl,
      List.nodup_append]
    refine ⟨hs.q_nodup, List.nodup_singleton _, ?_⟩
    intro a ha hmem
    rw [List.mem_singleton] at hmem
    exact hnq' (hmem ▸ ha)

theorem inv_popAlreadyDequeued {s : NodeList} {k : Nat}
    (hg : guardOk (.popAlreadyDequeued k) s = true) (hs : Inv s) :
    Inv (PopAlreadyDequeuedOpenNode s k).2 := by
  rw [guardOk] at hg
  cases hf : htFind s.items s.open_nodes k with
  | none => rw [hf] at hg; simp at hg
  | some h0 =>
    rw [hf] at hg
    simp at hg
    have hg' : h0 ∉ s.open_queue := hg
    obtain ⟨hh0, hk0⟩ := htFind_some hf
    have he : (PopAlreadyDequeuedOpenNode s k).2 =
        { s with open_nodes := htPopKey s.items s.open_nodes k } := by
      simp [PopAlreadyDequeuedOpenNode, hf]
    rw [he]
    have hsub := htPopKey_sublist s.items s.open_nodes k
    refine ⟨(hsub.map _).nodup hs.ok_nodup, hs.ck_nodup,
      fun kk hkk => hs.ok_ck_disj kk ((hsub.map _).subset hkk), ?_, hs.q_nodup,
      fun x hx => hs.on_lt x (hsub.subset hx), hs.cn_lt⟩
    intro x hx
    have hxo := hs.q_sub x hx
    have hxne : x ≠ h0 := fun e => hg' (e ▸ hx)
    have hkne : keyAt s.items x ≠ k := fun e =>
      hxne (List.inj_on_of_nodup_map hs.ok_nodup hxo hh0 (e.trans hk0.symm))
    exact (mem_htPopKey_of_ne hkne).mpr hxo

theorem inv_popOpen {s : NodeList} {k : Nat}
    (hg : guardOk (.popOpen k) s = true) (hs : Inv s) : Inv (PopOpenNode s k).2 := by
  rw [guardOk] at hg
  cases hf : htFind s.items s.open_nodes k with
  | none => rw [hf] at hg; simp at hg
  | some h0 =>
    rw [hf] at hg
    obtain ⟨hh0, hk0⟩ := htFind_some hf
    have he : (PopOpenNode s k).2 = { s with open_nodes := htPopKey s.items s.open_nodes k, open_queue := s.open_queue.erase h0 } := by
      simp [PopOpenNode, hf]
    rw [he]
    have hsub := htPopKey_sublist s.items s.open_nodes k
    refine ⟨(hsub.map _).nodup hs.ok_nodup, hs.ck_nodup,
      fun kk hkk => hs.ok_ck_disj kk ((hsub.map _).subset hkk), ?_,
      (List.erase_sublist h0 s.open_queue).nodup hs.q_nodup,
      fun x hx => hs.on_lt x (hsub.subset hx), hs.cn_lt⟩
    intro x hx
    obtain ⟨hne, hxq⟩ := (List.Nodup.mem_erase_iff hs.q_nodup).mp hx
    have hxo := hs.q_sub x hxq
    have hkne : keyAt s.items x ≠ k := fun e =>
      hne (List.inj_on_of_nodup_map hs.ok_nodup hxo hh0 (e.trans hk0.symm))
    exact (mem_htPopKey_of_ne hkne).mpr hxo

theorem inv_insertClosed {s : NodeList} {h : Nat}
    (hg : guardOk (.insertClosed h) s = true) (hs : Inv s) : Inv (InsertClosedNode s h) := by
  simp only [guardOk, Bool.and_eq_true, decide_eq_true_eq, Option.isNone_iff_eq_none] at hg
  obtain ⟨⟨hlt, hop⟩, hcl⟩ := hg
  have hknotopen : keyAt s.items h ∉ openKeys s := findOpen_eq_none.mp hop
  have hknotclosed : keyAt s.items h ∉ closedKeys s := findClosed_eq_none.mp hcl
  have hck : closedKeys (InsertClosedNode s h) = closedKeys s ++ [keyAt s.items h] := by
    simp [InsertClosedNode, closedKeys, htPush]
  refine ⟨hs.ok_nodup, ?_, ?_, hs.q_sub, hs.q_nodup, hs.on_lt, ?_⟩
  · rw [hck, List.nodup_append]
    refine ⟨hs.ck_nodup, List.nodup_singleton _, ?_⟩
    intro a ha hmem
    rw [List.mem_singleton] at hmem
    exact hknotclosed (hmem ▸ ha)
  · intro k hk
    rw [hck]
    intro hmem
    rcases List.mem_append.mp hmem with hm | hm
    · exact hs.ok_ck_disj k hk hm
    · simp at hm
      exact hknotopen (hm ▸ hk)
  · intro x hx
    rcases List.mem_append.mp hx with hx | hx
    · exact hs.cn_lt x hx
    · simp at hx
      exact hx ▸ hlt

theorem inv_run {s : NodeList} (op : Op) (hg : guardOk op s = true) (hs : Inv s) :
    Inv (run op s) := by
  cases op with
  | create => exact inv_create hs
  | setFields h k c => exact inv_setFields hg hs
  | setCost h c => exact inv_setCost hs
  | foundBest h => exact inv_foundBest hs
  | insertOpen h => exact inv_insertOpen hg hs
  | popBest => exact inv_popBest hs
  | dequeueBest => exact inv_dequeueBest hs
  | reenqueue h => exact inv_reenqueue hg hs
  | popAlreadyDequeued k => exact inv_popAlreadyDequeued hg hs
  | popOpen k => exact inv_popOpen hg hs
  | insertClosed h => exact inv_insertClosed hg hs

/-- Every state reachable through the guarded façade operations satisfies the
structural invariant. -/
theorem reach_inv {s : NodeList} (hr : Reach s) : Inv s := by
  induction hr with
  | init => exact inv_init
  | step op hg _ ih => exact inv_run op hg ih

/-! ### Component equations for PopBestOpenNode and the pop sequence -/

theorem popBest_none {s : NodeList} (hq : queueMin s.items s.open_queue = none) :
    PopBestOpenNode s = (none, s) := by
  simp [PopBestOpenNode, hq]

theorem popBest_some {s : NodeList} {m : Nat}
    (hq : queueMin s.items s.open_queue = some m) :
    (PopBestOpenNode s).1 = some m ∧
    (PopBestOpenNode s).2.items = s.items ∧
    (PopBestOpenNode s).2.open_queue = s.open_queue.erase m ∧
    (PopBestOpenNode s).2.open_nodes = htPopKey s.items s.open_nodes (keyAt s.items m) ∧
    (PopBestOpenNode s).2.closed_nodes = s.closed_nodes ∧
    (PopBestOpenNode s).2.new_node = s.new_node := by
  simp [PopBestOpenNode, hq]

theorem popAllCosts_succ_none {n : Nat} {s : NodeList}
    (hq : queueMin s.items s.open_queue = none) : popAllCosts (n + 1) s = [] := by
  rw [popAllCosts, popBest_none hq]

theorem popAllCosts_succ_some {n : Nat} {s : NodeList} {m : Nat}
    (hq : queueMin s.items s.open_queue = some m) :
    popAllCosts (n + 1) s = costAt s.items m :: popAllCosts n (PopBestOpenNode s).2 := by
  rw [popAllCosts]
  rcases hp : PopBestOpenNode s with ⟨r, s'⟩
  have hr : r = some m := by
    have h1 := (popBest_some hq).1
    rw [hp] at h1
    exact h1
  subst hr
  rfl

theorem popAllCosts_mem {fuel : Nat} {s : NodeList} :
    ∀ c ∈ popAllCosts fuel s, ∃ h ∈ s.open_queue, c = costAt s.items h := by
  induction fuel generalizing s with
  | zero => simp [popAllCosts]
  | succ n ih =>
    intro c hc
    cases hq : queueMin s.items s.open_queue with
    | none => rw [popAllCosts_succ_none hq] at hc; simp at hc
    | some m =>
      rw [popAllCosts_succ_some hq] at hc
      obtain ⟨-, hitems, hqueue, -, -, -⟩ := popBest_some hq
      rcases List.mem_cons.mp hc with hc | hc
      · exact ⟨m, queueMin_mem hq, hc⟩
      · obtain ⟨h, hh, hch⟩ := ih c hc
        rw [hqueue] at hh
        rw [hitems] at hch
        exact ⟨h, List.mem_of_mem_erase hh, hch⟩

/-- The sequence of costs produced by repeated `PopBestOpenNode` calls is
non-decreasing, from any starting state. -/
theorem popAllCosts_sorted (fuel : Nat) (s : NodeList) :
    List.Chain' (fun a b => a ≤ b) (popAllCosts fuel s) := by
  induction fuel generalizing s with
  | zero => simp [popAllCosts]
  | succ n ih =>
    cases hq : queueMin s.items s.open_queue with
    | none => rw [popAllCosts_succ_none hq]; exact List.chain'_nil
    | some m =>
      rw [popAllCosts_succ_some hq, List.chain'_cons']
      refine ⟨?_, ih _⟩
      intro y hy
      have hmem : y ∈ popAllCosts n (PopBestOpenNode s).2 := by
        cases hl : popAllCosts n (PopBestOpenNode s).2 with
        | nil => rw [hl] at hy; simp at hy
        | cons a t =>
          rw [hl] at hy
          simp at hy
          subst hy
          exact List.mem_cons_self _ _
      obtain ⟨h, hh, hch⟩ := popAllCosts_mem y hmem
      obtain ⟨-, hitems, hqueue, -, -, -⟩ := popBest_some hq
      rw [hqueue] at hh
      rw [hitems] at hch
      exact hch ▸ queueMin_le hq h (List.mem_of_mem_erase hh)

/-! ### Counting: conservation and queue/index pairing -/

theorem create_open_nodes (s : NodeList) : (CreateNewNode s).1.open_nodes = s.open_nodes := by
  cases hn : s.new_node <;> simp [CreateNewNode, hn]

theorem create_open_queue (s : NodeList) : (CreateNewNode s).1.open_queue = s.open_queue := by
  cases hn : s.new_node <;> simp [CreateNewNode, hn]

theorem foundBest_open_nodes (s : NodeList) (h : Nat) :
    (FoundBestNode s h).open_nodes = s.open_nodes := by
  rw [FoundBestNode]; split <;> rfl

theorem foundBest_open_queue (s : NodeList) (h : Nat) :
    (FoundBestNode s h).open_queue = s.open_queue := by
  rw [FoundBestNode]; split <;> rfl

theorem dequeue_some {s : NodeList} {m : Nat}
    (hq : queueMin s.items s.open_queue = some m) :
    DequeueBestOpenNode s = { s with open_queue := s.open_queue.erase m } := by
  simp [DequeueBestOpenNode, hq]

theorem htFind_of_mem {items : List Node} {tbl : List Nat}
    (hnd : (tbl.map (keyAt items)).Nodup) {m : Nat} (hm : m ∈ tbl) :
    htFind items tbl (keyAt items m) = some m := by
  obtain ⟨h', hf⟩ := htFind_isSome hm rfl
  obtain ⟨hh', hk'⟩ := htFind_some hf
  have he : h' = m := List.inj_on_of_nodup_map hnd hh' hm hk'
  rw [hf, he]

theorem nodup_lt_length_le {l : List Nat} {n : Nat} (hnd : l.Nodup)
    (hlt : ∀ x ∈ l, x < n) : l.length ≤ n := by
  have h1 : l.length = l.toFinset.card := (List.toFinset_card_of_nodup hnd).symm
  have h2 : l.toFinset ⊆ Finset.range n := by
    intro x hx
    rw [List.mem_toFinset] at hx
    rw [Finset.mem_range]
    exact hlt x hx
  calc l.length = l.toFinset.card := h1
    _ ≤ (Finset.range n).card := Finset.card_le_card h2
    _ = n := Finset.card_range n

/-- Under the structural invariant, the indexed nodes never outnumber the
arena: open plus closed is at most the total allocation count. -/
theorem inv_counts_le {s : NodeList} (hs : Inv s) :
    OpenCount s + ClosedCount s ≤ TotalCount s := by
  have hmap : ((s.open_nodes ++ s.closed_nodes).map (keyAt s.items)).Nodup := by
    rw [List.map_append, List.nodup_append]
    exact ⟨hs.ok_nodup, hs.ck_nodup, hs.ok_ck_disj⟩
  have hnd : (s.open_nodes ++ s.closed_nodes).Nodup := List.Nodup.of_map _ hmap
  have hlt : ∀ x ∈ s.open_nodes ++ s.closed_nodes, x < s.items.length := by
    intro x hx
    rcases List.mem_append.mp hx with hx | hx
    · exact hs.on_lt x hx
    · exact hs.cn_lt x hx
  have hle := nodup_lt_length_le hnd hlt
  rw [List.length_append] at hle
  exact hle

/-- Along paired reachability the structural invariant holds and the open
membership index and the priority queue always have the same element count. -/
theorem reachP_paired {s : NodeList} (hr : ReachP s) :
    Inv s ∧ OpenCount s = s.open_queue.length := by
  induction hr with
  | init => exact ⟨inv_init, rfl⟩
  | @create s _ ih =>
    refine ⟨inv_create ih.1, ?_⟩
    have h2 := ih.2
    rw [OpenCount] at h2 ⊢
    rw [show (run .create s).open_nodes = s.open_nodes from create_open_nodes s,
      show (run .create s).open_queue = s.open_queue from create_open_queue s]
    exact h2
  | @setFields s h k c hg _ ih => exact ⟨inv_setFields hg ih.1, ih.2⟩
  | @setCost s h c hg _ ih => exact ⟨inv_setCost ih.1, ih.2⟩
  | @foundBest s h hg _ ih =>
    refine ⟨inv_foundBest ih.1, ?_⟩
    have h2 := ih.2
    rw [OpenCount] at h2 ⊢
    rw [show (run (.foundBest h) s).open_nodes = s.open_nodes from foundBest_open_nodes s h,
      show (run (.foundBest h) s).open_queue = s.open_queue from foundBest_open_queue s h]
    exact h2
  | @insertOpen s h hg _ ih =>
    refine ⟨inv_insertOpen hg ih.1, ?_⟩
    have h2 := ih.2
    rw [OpenCount] at h2 ⊢
    simp only [run, InsertOpenNode, htPush, queueInclude, List.length_append,
      List.length_singleton]
    omega
  | @popBest s _ ih =>
    refine ⟨inv_popBest ih.1, ?_⟩
    have h2 := ih.2
    cases hq : queueMin s.items s.open_queue with
    | none =>
      have he : (PopBestOpenNode s).2 = s := by
        rw [popBest_none hq]
      rw [show run .popBest s = (PopBestOpenNode s).2 from rfl, he]
      exact h2
    | some m =>
      obtain ⟨-, -, hqueue, hopen, -, -⟩ := popBest_some hq
      have hmq : m ∈ s.open_queue := queueMin_mem hq
      have hmo : m ∈ s.open_nodes := ih.1.q_sub m hmq
      have hlen1 : (htPopKey s.items s.open_nodes (keyAt s.items m)).length + 1 =
          s.open_nodes.length := htPopKey_length hmo rfl
      have hlen2 : (s.open_queue.erase m).length = s.open_queue.length - 1 :=
        List.length_erase_of_mem hmq
      have hpos : 0 < s.open_queue.length := List.length_pos.mpr (List.ne_nil_of_mem hmq)
      rw [OpenCount] at h2 ⊢
      rw [show (run .popBest s).open_nodes = (PopBestOpenNode s).2.open_nodes from rfl,
        show (run .popBest s).open_queue = (PopBestOpenNode s).2.open_queue from rfl,
        hopen, hqueue, hlen2]
      omega
  | @popOpen s k hg _ ih =>
    refine ⟨inv_popOpen hg ih.1, ?_⟩
    have h2 := ih.2
    rw [guardOk] at hg
    cases hf : htFind s.items s.open_nodes k with
    | none => rw [hf] at hg; simp at hg
    | some h0 =>
      rw [hf] at hg
      simp at hg
      obtain ⟨hh0, hk0⟩ := htFind_some hf
      have he : (PopOpenNode s k).2 = { s with open_nodes := htPopKey s.items s.open_nodes k, open_queue := s.open_queue.erase h0 } := by
        simp [PopOpenNode, hf]
      have hlen1 : (htPopKey s.items s.open_nodes k).length + 1 =
          s.open_nodes.length := htPopKey_length hh0 (by simp [hk0])
      have hlen2 : (s.open_queue.erase h0).length = s.open_queue.length - 1 :=
        List.length_erase_of_mem hg
      have hpos : 0 < s.open_queue.length := List.length_pos.mpr (List.ne_nil_of_mem hg)
      rw [OpenCount] at h2 ⊢
      rw [show run (.popOpen k) s = (PopOpenNode s k).2 from rfl, he]
      simp only [hlen2]
      omega
  | @insertClosed s h hg _ ih => exact ⟨inv_insertClosed hg ih.1, ih.2⟩
  | @dequeueReenqueue s m hq _ ih =>
    obtain ⟨hi, h2⟩ := ih
    have hmq : m ∈ s.open_queue := queueMin_mem hq
    have hmo : m ∈ s.open_nodes := hi.q_sub m hmq
    have hde : DequeueBestOpenNode s = { s with open_queue := s.open_queue.erase m } :=
      dequeue_some hq
    have hnq : m ∉ s.open_queue.erase m := fun hmem =>
      ((List.Nodup.mem_erase_iff hi.q_nodup).mp hmem).1 rfl
    have hgr : guardOk (.reenqueue m) (run .dequeueBest s) = true := by
      rw [show run .dequeueBest s = DequeueBestOpenNode s from rfl, hde]
      simp [guardOk]
      exact ⟨hmo, hnq⟩
    refine ⟨inv_reenqueue hgr (inv_dequeueBest hi), ?_⟩
    have hlen2 : (s.open_queue.erase m).length = s.open_queue.length - 1 :=
      List.length_erase_of_mem hmq
    have hpos : 0 < s.open_queue.length := List.length_pos.mpr (List.ne_nil_of_mem hmq)
    rw [OpenCount] at h2 ⊢
    rw [show run (.reenqueue m) (run .dequeueBest s) =
      ReenqueueOpenNode (DequeueBestOpenNode s) m from rfl, hde]
    simp only [ReenqueueOpenNode, queueInclude, List.length_append, List.length_singleton,
      hlen2]
    omega
  | @dequeuePopAlready s m hq _ ih =>
    obtain ⟨hi, h2⟩ := ih
    have hmq : m ∈ s.open_queue := queueMin_mem hq
    have hmo : m ∈ s.open_nodes := hi.q_sub m hmq
    have hde : DequeueBestOpenNode s = { s with open_queue := s.open_queue.erase m } :=
      dequeue_some hq
    have hnq : m ∉ s.open_queue.erase m := fun hmem =>
      ((List.Nodup.mem_erase_iff hi.q_nodup).mp hmem).1 rfl
    have hff : htFind s.items s.open_nodes (keyAt s.items m) = some m :=
      htFind_of_mem hi.ok_nodup hmo
    have hgr : guardOk (.popAlreadyDequeued (keyAt s.items m)) (run .dequeueBest s) = true := by
      rw [show run .dequeueBest s = DequeueBestOpenNode s from rfl, hde]
      rw [guardOk]
      simp only [hff]
      simpa using hnq
    refine ⟨inv_popAlreadyDequeued hgr (inv_dequeueBest hi), ?_⟩
    have hlen1 : (htPopKey s.items s.open_nodes (keyAt s.items m)).length + 1 =
        s.open_nodes.length := htPopKey_length hmo rfl
    have hlen2 : (s.open_queue.erase m).length = s.open_queue.length - 1 :=
      List.length_erase_of_mem hmq
    have hpos : 0 < s.open_queue.length := List.length_pos.mpr (List.ne_nil_of_mem hmq)
    have hpa : (PopAlreadyDequeuedOpenNode (DequeueBestOpenNode s) (keyAt s.items m)).2 =
        { s with open_queue := s.open_queue.erase m, open_nodes := htPopKey s.items s.open_nodes (keyAt s.items m) } := by
      rw [hde]
      simp [PopAlreadyDequeuedOpenNode, hff]
    rw [OpenCount] at h2 ⊢
    rw [show run (.popAlreadyDequeued (keyAt s.items m)) (run .dequeueBest s) =
      (PopAlreadyDequeuedOpenNode (DequeueBestOpenNode s) (keyAt s.items m)).2 from rfl, hpa]
    simp only [hlen2]
    omega

/-! ### Reachability of the concrete scenario states -/

theorem reach_sNew : Reach sNew :=
  Reach.step (.setFields 0 7 5) (by decide) (Reach.step .create (by decide) Reach.init)

theorem reach_sA : Reach sA := Reach.step (.insertOpen 0) (by decide) reach_sNew

theorem reach_sB : Reach sB :=
  Reach.step (.insertClosed 0) (by decide) (Reach.step .popBest (by decide) reach_sA)

theorem reach_sDeq : Reach sDeq := Reach.step .dequeueBest (by decide) reach_sA

theorem reach_sPop : Reach sPop := Reach.step .popBest (by decide) reach_sA

theorem reach_sLeak2 : Reach sLeak2 :=
  Reach.step (.foundBest 1) (by decide) (Reach.step .create (by decide)
    (Reach.step (.foundBest 0) (by decide) (Reach.step .create (by decide) Reach.init)))

theorem reachP_sA : ReachP sA :=
  ReachP.insertOpen 0 (by decide)
    (ReachP.setFields 0 7 5 (by decide) (ReachP.create ReachP.init))

/-! ### The claims -/

/-- C1: in every reachable state of the Node List, no key is simultaneously
findable via `FindOpenNode` and `FindClosedNode`; every guarded façade
sequence preserves this because `InsertOpenNode` requires the key absent from
the closed index and `InsertClosedNode` requires it absent from the open
index. -/
theorem open_closed_disjoint {s : NodeList} (hr : Reach s) (k : Nat) :
    ¬((FindOpenNode s k).isSome = true ∧ (FindClosedNode s k).isSome = true) := by
  rintro ⟨ho, hc⟩
  have hi := reach_inv hr
  obtain ⟨h1, hf1⟩ := Option.isSome_iff_exists.mp ho
  obtain ⟨h2, hf2⟩ := Option.isSome_iff_exists.mp hc
  obtain ⟨hm1, hk1⟩ := htFind_some hf1
  obtain ⟨hm2, hk2⟩ := htFind_some hf2
  exact hi.ok_ck_disj k (hk1 ▸ List.mem_map_of_mem _ hm1)
    (hk2 ▸ List.mem_map_of_mem _ hm2)

/-- C1 witness: the disjointness instantiated at the concrete reachable state
with key 7 open. -/
theorem open_closed_disjoint_apply :
    ¬((FindOpenNode sA 7).isSome = true ∧ (FindClosedNode sA 7).isSome = true) :=
  open_closed_disjoint reach_sA 7

/-- C2: repeated `PopBestOpenNode` yields non-decreasing total estimated
costs from any state; in Scenario A, inserting nodes with costs 5, 3, 7 pops
them as costs 3, 5, 7 (handles 1, 0, 2) and leaves `OpenCount` zero. -/
theorem popBest_min_order :
    (∀ (fuel : Nat) (s : NodeList),
      List.Chain' (fun a b => a ≤ b) (popAllCosts fuel s)) ∧
    popAllCosts 3 sABC = [3, 5, 7] ∧
    (PopBestOpenNode sABC).1 = some 1 ∧
    (PopBestOpenNode (PopBestOpenNode sABC).2).1 = some 0 ∧
    (PopBestOpenNode (PopBestOpenNode (PopBestOpenNode sABC).2).2).1 = some 2 ∧
    OpenCount (PopBestOpenNode (PopBestOpenNode (PopBestOpenNode sABC).2).2).2 = 0 :=
  ⟨popAllCosts_sorted, by decide, by decide, by decide, by decide, by decide⟩

/-- C3: consecutive `CreateNewNode` calls return the same handle and state; a
fresh node is allocated from the arena only when no uncommitted node exists. -/
theorem createNewNode_idempotent (s : NodeList) :
    (CreateNewNode (CreateNewNode s).1).2 = (CreateNewNode s).2 ∧
    (CreateNewNode (CreateNewNode s).1).1 = (CreateNewNode s).1 ∧
    (s.new_node = none → (CreateNewNode s).1.items.length = s.items.length + 1) ∧
    (∀ h, s.new_node = some h → (CreateNewNode s).1 = s ∧ (CreateNewNode s).2 = h) := by
  cases hn : s.new_node with
  | some h => simp [CreateNewNode, hn]
  | none => simp [CreateNewNode, hn]

/-- C3 witness: from the fresh state the first call allocates, instantiating
the allocation clause. -/
theorem createNewNode_idempotent_apply :
    (CreateNewNode initState).1.items.length = initState.items.length + 1 :=
  (createNewNode_idempotent initState).2.2.1 rfl

/-- C4: with an empty open queue, `GetBestOpenNode` and `PopBestOpenNode`
return an empty result and leave the state untouched, and `GetBestOpenNode`
mutates no state whatsoever. -/
theorem absence_not_error (s : NodeList) (hq : s.open_queue = []) :
    GetBestOpenNode s = (none, s) ∧ PopBestOpenNode s = (none, s) ∧
    (∀ t : NodeList, (GetBestOpenNode t).2 = t) := by
  have hmin : queueMin s.items s.open_queue = none := by rw [hq]; rfl
  refine ⟨by simp [GetBestOpenNode, hmin], popBest_none hmin, ?_⟩
  intro t
  cases hq' : queueMin t.items t.open_queue <;> simp [GetBestOpenNode, hq']

/-- C4 witness: popping the empty fresh Node List returns empty. -/
theorem absence_not_error_apply :
    PopBestOpenNode initState = (none, initState) :=
  (absence_not_error initState rfl).2.1

/-- C5: on a reachable state with a non-empty open queue, `PopBestOpenNode`
removes the minimum-cost node from both the queue and the open index and
returns it; afterwards `FindOpenNode` on its key is empty and `OpenCount` has
decreased by one. -/
theorem popBest_removes_from_both {s : NodeList} (hr : Reach s)
    (hne : s.open_queue ≠ []) :
    ∃ m, (PopBestOpenNode s).1 = some m ∧
      (∀ x ∈ s.open_queue, costAt s.items m ≤ costAt s.items x) ∧
      m ∉ (PopBestOpenNode s).2.open_queue ∧
      FindOpenNode (PopBestOpenNode s).2 (keyAt s.items m) = none ∧
      OpenCount (PopBestOpenNode s).2 + 1 = OpenCount s := by
  have hi := reach_inv hr
  obtain ⟨m, hq⟩ := queueMin_isSome hne
  obtain ⟨h1, hitems, hqueue, hopen, -, -⟩ := popBest_some hq
  have hmq : m ∈ s.open_queue := queueMin_mem hq
  have hmo : m ∈ s.open_nodes := hi.q_sub m hmq
  refine ⟨m, h1, queueMin_le hq, ?_, ?_, ?_⟩
  · rw [hqueue]
    intro hmem
    exact ((List.Nodup.mem_erase_iff hi.q_nodup).mp hmem).1 rfl
  · rw [show FindOpenNode (PopBestOpenNode s).2 (keyAt s.items m) =
      htFind (PopBestOpenNode s).2.items (PopBestOpenNode s).2.open_nodes
        (keyAt s.items m) from rfl, hitems, hopen]
    exact htFind_eq_none.mpr (htPopKey_no_key hi.ok_nodup)
  · rw [OpenCount, OpenCount, hopen]
    exact htPopKey_length hmo rfl

/-- C5 witness at the concrete one-node open state. -/
theorem popBest_removes_from_both_apply :
    ∃ m, (PopBestOpenNode sA).1 = some m ∧
      (∀ x ∈ sA.open_queue, costAt sA.items m ≤ costAt sA.items x) ∧
      m ∉ (PopBestOpenNode sA).2.open_queue ∧
      FindOpenNode (PopBestOpenNode sA).2 (keyAt sA.items m) = none ∧
      OpenCount (PopBestOpenNode sA).2 + 1 = OpenCount sA :=
  popBest_removes_from_both reach_sA (by decide)

/-- C6: `DequeueBestOpenNode` followed by `PopAlreadyDequeuedOpenNode` on the
dequeued node's key removes that node fully from the open set — afterwards
`FindOpenNode` on the key is empty — without ever invoking `PopOpenNode`. -/
theorem matched_pair_removal {s : NodeList} (hr : Reach s)
    (hne : s.open_queue ≠ []) :
    ∃ m, queueMin s.items s.open_queue = some m ∧
      (PopAlreadyDequeuedOpenNode (DequeueBestOpenNode s) (keyAt s.items m)).1 = some m ∧
      FindOpenNode (PopAlreadyDequeuedOpenNode (DequeueBestOpenNode s)
        (keyAt s.items m)).2 (keyAt s.items m) = none := by
  have hi := reach_inv hr
  obtain ⟨m, hq⟩ := queueMin_isSome hne
  have hmo : m ∈ s.open_nodes := hi.q_sub m (queueMin_mem hq)
  have hde := dequeue_some hq
  have hff : htFind s.items s.open_nodes (keyAt s.items m) = some m :=
    htFind_of_mem hi.ok_nodup hmo
  have hpa : PopAlreadyDequeuedOpenNode (DequeueBestOpenNode s) (keyAt s.items m) =
      (some m, { s with open_queue := s.open_queue.erase m, open_nodes := htPopKey s.items s.open_nodes (keyAt s.items m) }) := by
    rw [hde]
    simp [PopAlreadyDequeuedOpenNode, hff]
  refine ⟨m, hq, ?_, ?_⟩
  · rw [hpa]
  · rw [hpa]
    exact htFind_eq_none.mpr (htPopKey_no_key hi.ok_nodup)

/-- C6 witness at the concrete one-node open state. -/
theorem matched_pair_removal_apply :
    ∃ m, queueMin sA.items sA.open_queue = some m ∧
      (PopAlreadyDequeuedOpenNode (DequeueBestOpenNode sA) (keyAt sA.items m)).1 = some m ∧
      FindOpenNode (PopAlreadyDequeuedOpenNode (DequeueBestOpenNode sA)
        (keyAt sA.items m)).2 (keyAt sA.items m) = none :=
  matched_pair_removal reach_sA (by decide)

/-- C7: the I1 preconditions fail fast: `InsertOpenNode` on a key already in
the closed index, or `InsertClosedNode` on a key already in the open index,
violates the `dbg_assert` guard (abort in debug builds); in Scenario B, after
key 7 has been closed, a subsequent `InsertOpenNode` with key 7 trips it. -/
theorem insert_precondition_fail_fast (s : NodeList) (h : Nat) :
    ((FindClosedNode s (keyAt s.items h)).isSome = true →
      guardOk (.insertOpen h) s = false) ∧
    ((FindOpenNode s (keyAt s.items h)).isSome = true →
      guardOk (.insertClosed h) s = false) ∧
    (Reach sB ∧ (FindClosedNode sB 7).isSome = true ∧
      guardOk (.insertOpen 0) sB = false) := by
  refine ⟨?_, ?_, reach_sB, by decide, by decide⟩
  · intro hsome
    obtain ⟨x, hx⟩ := Option.isSome_iff_exists.mp hsome
    simp [guardOk, hx]
  · intro hsome
    obtain ⟨x, hx⟩ := Option.isSome_iff_exists.mp hsome
    simp [guardOk, hx]

/-- C7 witness: the Scenario B violation instantiated concretely. -/
theorem insert_precondition_fail_fast_apply :
    guardOk (.insertOpen 0) sB = false :=
  (insert_precondition_fail_fast sB 0).1 (by decide)

/-- C8 counterexample: after a bare `DequeueBestOpenNode` the reachable state
`sDeq` has `OpenCount` 1 while the priority queue holds 0 elements, so
`OpenCount` does not equal the queue's element count in every reachable
state. -/
theorem openCount_queue_mismatch :
    Reach sDeq ∧ OpenCount sDeq = 1 ∧ sDeq.open_queue.length = 0 :=
  ⟨reach_sDeq, by decide, by decide⟩

/-- C8 amended: `OpenCount` equals the priority queue's element count in every
state reachable with the dequeue window always closed immediately by its
matched `ReenqueueOpenNode`/`PopAlreadyDequeuedOpenNode` second half. -/
theorem openCount_eq_queue_length_paired {s : NodeList} (hr : ReachP s) :
    OpenCount s = s.open_queue.length :=
  (reachP_paired hr).2

/-- C8 amended witness at the concrete one-node open state. -/
theorem openCount_eq_queue_length_paired_apply :
    OpenCount sA = sA.open_queue.length :=
  openCount_eq_queue_length_paired reachP_sA

/-- C9 counterexample: reachable states where the arena strictly exceeds
open + closed although no uncommitted node exists (`sPop`: a popped node kept
by the caller), and where the gap is two (`sLeak2`), refuting both the
equality condition and the difference-at-most-one reading. -/
theorem conservation_equality_fails :
    (Reach sPop ∧ sPop.new_node = none ∧
      OpenCount sPop + ClosedCount sPop = 0 ∧ TotalCount sPop = 1) ∧
    (Reach sLeak2 ∧ sLeak2.new_node = none ∧
      OpenCount sLeak2 + ClosedCount sLeak2 = 0 ∧ TotalCount sLeak2 = 2) :=
  ⟨⟨reach_sPop, by decide, by decide, by decide⟩,
   ⟨reach_sLeak2, by decide, by decide, by decide⟩⟩

/-- C9 amended: `TotalCount` is at least `OpenCount + ClosedCount` in every
reachable state; the gap counts the uncommitted node together with any nodes
handed back to the caller and never re-indexed, and can exceed one. -/
theorem conservation_inequality {s : NodeList} (hr : Reach s) :
    OpenCount s + ClosedCount s ≤ TotalCount s :=
  inv_counts_le (reach_inv hr)

/-- C9 amended witness at the concrete Scenario B state. -/
theorem conservation_inequality_apply :
    OpenCount sB + ClosedCount sB ≤ TotalCount sB :=
  conservation_inequality reach_sB

/-- C10: `InsertClosedNode` leaves the uncommitted-node marker untouched,
unlike `InsertOpenNode`; closing the current uncommitted node makes the next
`CreateNewNode` return that same, now-closed node without allocating. -/
theorem insertClosed_keeps_new_node (s : NodeList) (h : Nat) :
    (InsertClosedNode s h).new_node = s.new_node ∧
    (s.new_node = some h →
      CreateNewNode (InsertClosedNode s h) = (InsertClosedNode s h, h)) ∧
    (s.new_node = some h → (InsertOpenNode s h).new_node = none) := by
  refine ⟨rfl, ?_, ?_⟩
  · intro hn
    simp [CreateNewNode, InsertClosedNode, hn]
  · intro hn
    simp [InsertOpenNode, hn]

/-- C10 witness: closing the freshly populated uncommitted node 0 and calling
`CreateNewNode` again returns node 0 without allocating. -/
theorem insertClosed_keeps_new_node_apply :
    CreateNewNode (InsertClosedNode sNew 0) = (InsertClosedNode sNew 0, 0) :=
  (insertClosed_keeps_new_node sNew 0).2.1 rfl

end YapfNodeList
